import Mathlib

/-!
Verification of the request-governance layer (rate limiter + response cache)
of the React-Node-Project backend.

The embedding translates the TypeScript sources:
  * rate-limiter middleware (normalizePath, getRateLimitKey, getRateLimitStatus,
    handleStandardRateLimit, handleSkipSuccessfulRequests, rateLimiter),
  * cache key helpers (sanitizeCacheKey, buildCacheKey),
  * cache service (setCache/getCache, in its two variants present in the repo),
  * cache middleware (cacheMiddleware with its res.json interception),
into pure Lean functions.  JavaScript machine integers never overflow in the
modelled ranges, so counters and times are Nat/Int.  The Redis primitives
(getKeyWithTTL, setKey, incrKey) are external collaborators that are not part
of the repository sources; they are modelled from the spec (section 6) and
marked as such.  Time is modelled with "now = 0": reset times are offsets in
milliseconds from the moment of the request.
-/

/-! ## Generic character-list utilities

JavaScript regex replacements used by the sources are modelled as recursive
functions on `List Char`.
-/

/-- Collapse every maximal run of the character `c` to a single `c`
(the JS replacement of `/c+/g` by `c`). -/
def collapseRuns (c : Char) : List Char → List Char
  | [] => []
  | [a] => [a]
  | a :: b :: rest =>
    if a = c ∧ b = c then collapseRuns c (b :: rest)
    else a :: collapseRuns c (b :: rest)

/-- Remove a single leading `c` when present (the `^c` half of a
`/^c|c$/g` replacement by the empty string). -/
def dropHeadIf (c : Char) : List Char → List Char
  | [] => []
  | a :: rest => if a = c then rest else a :: rest

/-- Remove a single trailing `c` when present (the `c$` half of a
`/^c|c$/g` replacement by the empty string). -/
def dropLastIf (c : Char) : List Char → List Char
  | [] => []
  | [a] => if a = c then [] else [a]
  | a :: b :: rest => a :: dropLastIf c (b :: rest)

/-- Does the list end with the character `c`? -/
def lastIs (c : Char) : List Char → Bool
  | [] => false
  | [a] => a = c
  | _ :: b :: rest => lastIs c (b :: rest)

/-- No two adjacent occurrences of `c` anywhere in the list. -/
def noTwo (c : Char) : List Char → Bool
  | [] => true
  | [_] => true
  | a :: b :: rest => !(a = c && b = c) && noTwo c (b :: rest)

/-- Characters matched by the JS `\s` class, restricted to ASCII. -/
def isJsSpace (c : Char) : Bool :=
  c = ' ' || c = '\t' || c = '\n' || c = '\r' || c = '\x0b' || c = '\x0c'

/-- Replace every maximal run of whitespace by a single underscore
(the JS replacement of whitespace runs). -/
def squashSpaces : List Char → List Char
  | [] => []
  | [a] => if isJsSpace a then ['_'] else [a]
  | a :: b :: rest =>
    if isJsSpace a then
      if isJsSpace b then squashSpaces (b :: rest)
      else '_' :: squashSpaces (b :: rest)
    else a :: squashSpaces (b :: rest)

/-! ## Path normalization and rate-limit keys (rate-limiter middleware) -/

/-- The character class `[a-z0-9/_-]` of the normalizePath replacement. -/
def isPathAllowedChar (c : Char) : Bool :=
  ('a' ≤ c && c ≤ 'z') || ('0' ≤ c && c ≤ '9') || c = '/' || c = '_' || c = '-'

/-- `normalizePath` on character lists: lower-case, collapse repeated
slashes, strip one leading and one trailing slash, replace characters
outside `[a-z0-9/_-]` by `_`.  Mirrors the middleware's chain
`path.toLowerCase().replace(...).replace(...).replace(...)`
(ASCII-faithful lower-casing). -/
def normalizePathL (l : List Char) : List Char :=
  (dropLastIf '/' (dropHeadIf '/' (collapseRuns '/' (l.map Char.toLower)))).map
    (fun c => if isPathAllowedChar c then c else '_')

/-- Normalize request path to prevent bypass attempts. -/
def normalizePath (s : String) : String :=
  ⟨normalizePathL s.data⟩

/-- Generate rate limit key: the middleware's template literal
`${pfx}:${type}:${identifier}:${normalizedPath}`. -/
def getRateLimitKey (pfx type identifier path : String) : String :=
  pfx ++ ":" ++ type ++ ":" ++ identifier ++ ":" ++ normalizePath path

/-! ## Cache key sanitization (cache.helpers.ts) -/

/-- The character class `[a-zA-Z0-9:/_?&=.-]` kept by sanitizeCacheKey. -/
def isKeyAllowedChar (c : Char) : Bool :=
  ('a' ≤ c && c ≤ 'z') || ('A' ≤ c && c ≤ 'Z') || ('0' ≤ c && c ≤ '9') ||
    c = ':' || c = '/' || c = '_' || c = '?' || c = '&' || c = '=' || c = '.' || c = '-'

/-- `sanitizeCacheKey` on character lists: whitespace runs to `_`,
characters outside the allowed class to `_`, collapse `_` runs,
trim one leading and one trailing `_`. -/
def sanitizeCacheKeyL (l : List Char) : List Char :=
  dropLastIf '_' (dropHeadIf '_'
    (collapseRuns '_'
      ((squashSpaces l).map (fun c => if isKeyAllowedChar c then c else '_'))))

/-- Sanitize cache key to prevent Redis injection (`if (!key) return ''`
is subsumed: the pipeline maps the empty string to the empty string). -/
def sanitizeCacheKey (key : String) : String :=
  ⟨sanitizeCacheKeyL key.data⟩

/-- Build full cache key with the namespace part; throws an error
when the namespace or the raw key is empty (JS falsiness of `''`). -/
def buildCacheKeyE (pfx key : String) : Except String String :=
  if pfx = "" ∨ key = "" then .error "Cache prefix and key are required"
  else .ok (sanitizeCacheKey pfx ++ ":" ++ sanitizeCacheKey key)

/-- The string produced by `buildCacheKey` on nonempty inputs. -/
def builtCacheKey (pfx key : String) : String :=
  sanitizeCacheKey pfx ++ ":" ++ sanitizeCacheKey key

example : normalizePath "/Foo" = "foo" := by decide
example : normalizePath "//foo/" = "foo" := by decide
example : sanitizeCacheKey "a  b" = "a_b" := by decide
example : sanitizeCacheKey "_a__b_" = "a_b" := by decide
example : buildCacheKeyE "users" "" = .error "Cache prefix and key are required" := by rfl

/-! ## Lemmas about the character-list utilities -/

theorem collapseRuns_head? (c : Char) (l : List Char) :
    (collapseRuns c l).head? = l.head? := by
  induction l with
  | nil => rfl
  | cons a t ih =>
    cases t with
    | nil => rfl
    | cons b rest =>
      simp only [collapseRuns]
      split
      · next h =>
        rw [ih]
        simp [h.1, h.2]
      · rfl

theorem mem_of_mem_collapseRuns {c x : Char} {l : List Char}
    (h : x ∈ collapseRuns c l) : x ∈ l := by
  induction l with
  | nil => simpa [collapseRuns] using h
  | cons a t ih =>
    cases t with
    | nil => simpa [collapseRuns] using h
    | cons b rest =>
      simp only [collapseRuns] at h
      split at h
      · exact List.mem_cons_of_mem _ (ih h)
      · rcases List.mem_cons.mp h with h | h
        · exact List.mem_cons.mpr (Or.inl h)
        · exact List.mem_cons_of_mem _ (ih h)

theorem collapseRuns_append_double (c : Char) (a b : List Char) :
    collapseRuns c (a ++ c :: c :: b) = collapseRuns c (a ++ c :: b) := by
  induction a with
  | nil => simp [collapseRuns]
  | cons x t ih =>
    cases t with
    | nil =>
      simp only [List.nil_append, List.cons_append, collapseRuns]
      by_cases hx : x = c
      · simp [hx, collapseRuns]
      · simp [hx, collapseRuns]
    | cons y rest =>
      simp only [List.cons_append] at ih ⊢
      simp only [collapseRuns]
      rw [ih]

theorem noTwo_collapseRuns (c : Char) (l : List Char) :
    noTwo c (collapseRuns c l) = true := by
  induction l with
  | nil => rfl
  | cons a t ih =>
    cases t with
    | nil => rfl
    | cons b rest =>
      simp only [collapseRuns]
      split
      · exact ih
      · next h =>
        have hh := collapseRuns_head? c (b :: rest)
        cases hcl : collapseRuns c (b :: rest) with
        | nil => rfl
        | cons z zs =>
          rw [hcl] at hh ih
          simp only [List.head?] at hh
          have hzb : z = b := by injection hh
          subst hzb
          simp only [noTwo, Bool.and_eq_true, ih, and_true,
            Bool.not_eq_true', Bool.and_eq_false_iff]
          by_cases hac : a = c
          · right
            simp only [decide_eq_false_iff_not]
            intro hbc
            exact h ⟨hac, hbc⟩
          · left
            simp [hac]

theorem mem_of_mem_dropHeadIf {c x : Char} {l : List Char}
    (h : x ∈ dropHeadIf c l) : x ∈ l := by
  cases l with
  | nil => simpa [dropHeadIf] using h
  | cons a t =>
    simp only [dropHeadIf] at h
    split at h
    · exact List.mem_cons_of_mem _ h
    · exact h

theorem mem_of_mem_dropLastIf {c x : Char} {l : List Char}
    (h : x ∈ dropLastIf c l) : x ∈ l := by
  induction l with
  | nil => simpa [dropLastIf] using h
  | cons a t ih =>
    cases t with
    | nil =>
      simp only [dropLastIf] at h
      split at h
      · simp at h
      · exact h
    | cons b rest =>
      simp only [dropLastIf] at h
      rcases List.mem_cons.mp h with h | h
      · exact List.mem_cons.mpr (Or.inl h)
      · exact List.mem_cons_of_mem _ (ih h)

theorem noTwo_tail {c a : Char} {t : List Char}
    (h : noTwo c (a :: t) = true) : noTwo c t = true := by
  cases t with
  | nil => rfl
  | cons b rest =>
    simp only [noTwo, Bool.and_eq_true] at h
    exact h.2

theorem noTwo_dropHeadIf {c : Char} {l : List Char}
    (h : noTwo c l = true) : noTwo c (dropHeadIf c l) = true := by
  cases l with
  | nil => rfl
  | cons a t =>
    simp only [dropHeadIf]
    split
    · exact noTwo_tail h
    · exact h

theorem noTwo_dropLastIf {c : Char} {l : List Char}
    (h : noTwo c l = true) : noTwo c (dropLastIf c l) = true := by
  induction l with
  | nil => rfl
  | cons a t ih =>
    cases t with
    | nil =>
      simp only [dropLastIf]
      split
      · rfl
      · rfl
    | cons b rest =>
      simp only [dropLastIf]
      have hab : ¬(a = c ∧ b = c) := by
        simp only [noTwo, Bool.and_eq_true, Bool.not_eq_true',
          Bool.and_eq_false_iff, decide_eq_false_iff_not] at h
        rcases h.1 with h1 | h1
        · exact fun hc => h1 hc.1
        · exact fun hc => h1 hc.2
      have ht : noTwo c (dropLastIf c (b :: rest)) = true :=
        ih (noTwo_tail h)
      cases hdl : dropLastIf c (b :: rest) with
      | nil => rfl
      | cons z zs =>
        have hzb : z = b := by
          cases rest with
          | nil =>
            simp only [dropLastIf] at hdl
            split at hdl
            · cases hdl
            · injection hdl with h1 _
              exact h1.symm
          | cons r rs =>
            simp only [dropLastIf] at hdl
            injection hdl with h1 _
            exact h1.symm
        rw [hdl] at ht
        subst hzb
        simp only [noTwo, Bool.and_eq_true, ht, and_true,
          Bool.not_eq_true', Bool.and_eq_false_iff, decide_eq_false_iff_not]
        by_cases hac : a = c
        · right
          exact fun hbc => hab ⟨hac, hbc⟩
        · left
          exact hac

theorem dropHeadIf_head_ne {c : Char} {l : List Char}
    (h : noTwo c l = true) : (dropHeadIf c l).head? ≠ some c := by
  cases l with
  | nil => simp [dropHeadIf]
  | cons a t =>
    simp only [dropHeadIf]
    split
    · next hac =>
      cases t with
      | nil => simp
      | cons b rest =>
        simp only [noTwo, Bool.and_eq_true, Bool.not_eq_true',
          Bool.and_eq_false_iff, decide_eq_false_iff_not] at h
        simp only [List.head?, ne_eq, Option.some.injEq]
        intro hb
        rcases h.1 with h1 | h1
        · exact h1 hac
        · exact h1 hb
    · next hac =>
      simp only [List.head?, ne_eq, Option.some.injEq]
      intro hb
      exact hac hb

theorem dropLastIf_head? (c : Char) (l : List Char) :
    dropLastIf c l = [] ∨ (dropLastIf c l).head? = l.head? := by
  cases l with
  | nil => exact Or.inl rfl
  | cons a t =>
    cases t with
    | nil =>
      simp only [dropLastIf]
      split
      · exact Or.inl rfl
      · exact Or.inr rfl
    | cons b rest =>
      exact Or.inr rfl

theorem lastIs_cons {c a : Char} {t : List Char} (ht : t ≠ []) :
    lastIs c (a :: t) = lastIs c t := by
  cases t with
  | nil => exact absurd rfl ht
  | cons b rest => rfl

theorem lastIs_dropHeadIf {c : Char} {l : List Char}
    (h : lastIs c l = false) : lastIs c (dropHeadIf c l) = false := by
  cases l with
  | nil => rfl
  | cons a t =>
    simp only [dropHeadIf]
    split
    · cases t with
      | nil => rfl
      | cons b rest =>
        rwa [lastIs_cons (by simp)] at h
    · exact h

theorem lastIs_dropLastIf {c : Char} {l : List Char}
    (h : noTwo c l = true) : lastIs c (dropLastIf c l) = false := by
  induction l with
  | nil => rfl
  | cons a t ih =>
    cases t with
    | nil =>
      simp only [dropLastIf]
      split
      · rfl
      · next hac =>
        simp only [lastIs, decide_eq_false_iff_not]
        exact hac
    | cons b rest =>
      simp only [dropLastIf]
      have ht := ih (noTwo_tail h)
      cases hdl : dropLastIf c (b :: rest) with
      | nil =>
        simp only [lastIs, decide_eq_false_iff_not]
        have hab : ¬(a = c ∧ b = c) := by
          simp only [noTwo, Bool.and_eq_true, Bool.not_eq_true',
            Bool.and_eq_false_iff, decide_eq_false_iff_not] at h
          rcases h.1 with h1 | h1
          · exact fun hc => h1 hc.1
          · exact fun hc => h1 hc.2
        cases rest with
        | nil =>
          simp only [dropLastIf] at hdl
          split at hdl
          · next hbc => exact fun hac => hab ⟨hac, hbc⟩
          · cases hdl
        | cons r rs => simp only [dropLastIf] at hdl; cases hdl
      | cons z zs =>
        rw [hdl] at ht
        rw [lastIs_cons (by simp)]
        exact ht

theorem dropHeadIf_of_head_ne {c : Char} {l : List Char}
    (h : l.head? ≠ some c) : dropHeadIf c l = l := by
  cases l with
  | nil => rfl
  | cons a t =>
    simp only [List.head?, ne_eq, Option.some.injEq] at h
    simp [dropHeadIf, fun hc : a = c => h hc]

theorem dropHeadIf_append {c : Char} {l m : List Char} (h : l ≠ []) :
    dropHeadIf c (l ++ m) = dropHeadIf c l ++ m := by
  cases l with
  | nil => exact absurd rfl h
  | cons a t =>
    simp only [List.cons_append, dropHeadIf]
    split
    · rfl
    · simp

theorem dropLastIf_append_self (c : Char) (l : List Char) :
    dropLastIf c (l ++ [c]) = l := by
  induction l with
  | nil => simp [dropLastIf]
  | cons a t ih =>
    cases t with
    | nil => simp [dropLastIf]
    | cons b rest =>
      simp only [List.cons_append] at ih ⊢
      simp only [dropLastIf]
      rw [ih]

theorem dropLastIf_of_lastIs_false {c : Char} {l : List Char}
    (h : lastIs c l = false) : dropLastIf c l = l := by
  induction l with
  | nil => rfl
  | cons a t ih =>
    cases t with
    | nil =>
      simp only [lastIs, decide_eq_false_iff_not] at h
      simp [dropLastIf, h]
    | cons b rest =>
      rw [lastIs_cons (by simp)] at h
      simp only [dropLastIf]
      rw [ih h]

theorem collapseRuns_ne_nil {c : Char} {l : List Char} (h : l ≠ []) :
    collapseRuns c l ≠ [] := by
  intro hc
  have := collapseRuns_head? c l
  rw [hc] at this
  cases l with
  | nil => exact h rfl
  | cons a t => simp at this

theorem lastIs_collapseRuns (c : Char) (l : List Char) :
    lastIs c (collapseRuns c l) = lastIs c l := by
  induction l with
  | nil => rfl
  | cons a t ih =>
    cases t with
    | nil => rfl
    | cons b rest =>
      simp only [collapseRuns]
      split
      · exact ih
      · have hne : collapseRuns c (b :: rest) ≠ [] := collapseRuns_ne_nil (by simp)
        rw [lastIs_cons hne]
        exact ih

theorem collapseRuns_append_last (c : Char) (l : List Char) :
    collapseRuns c (l ++ [c]) =
      if lastIs c l then collapseRuns c l else collapseRuns c l ++ [c] := by
  induction l with
  | nil => simp [collapseRuns, lastIs]
  | cons a t ih =>
    cases t with
    | nil =>
      simp only [List.cons_append, List.nil_append, collapseRuns, lastIs]
      by_cases hac : a = c
      · simp [hac, collapseRuns]
      · simp [hac, collapseRuns]
    | cons b rest =>
      simp only [List.cons_append] at ih ⊢
      by_cases hab : a = c ∧ b = c
      · obtain ⟨hac, hbc⟩ := hab
        subst hac
        subst hbc
        simp [collapseRuns, lastIs, ih]
      · by_cases hbl : lastIs c (b :: rest) = true
        · simp [collapseRuns, lastIs, ih, hab, hbl]
        · simp [collapseRuns, lastIs, ih, hab, hbl]

/-! ## normalizePath invariances -/

theorem normalizePathL_cons_slash (l : List Char) :
    normalizePathL ('/' :: l) = normalizePathL l := by
  unfold normalizePathL
  rw [List.map_cons, show Char.toLower '/' = '/' from rfl]
  cases hm : l.map Char.toLower with
  | nil => rfl
  | cons x t =>
    by_cases hx : x = '/'
    · subst hx
      rw [show collapseRuns '/' ('/' :: '/' :: t) = collapseRuns '/' ('/' :: t) from by
        simp [collapseRuns]]
    · have h1 : collapseRuns '/' ('/' :: x :: t) = '/' :: collapseRuns '/' (x :: t) := by
        simp [collapseRuns, hx]
      have h2 : dropHeadIf '/' ('/' :: collapseRuns '/' (x :: t)) =
          collapseRuns '/' (x :: t) := by
        simp [dropHeadIf]
      have h3 : (collapseRuns '/' (x :: t)).head? ≠ some '/' := by
        rw [collapseRuns_head?]
        simp [hx]
      rw [h1, h2, dropHeadIf_of_head_ne h3]

theorem normalizePathL_append_slash (l : List Char) :
    normalizePathL (l ++ ['/']) = normalizePathL l := by
  unfold normalizePathL
  rw [List.map_append, show List.map Char.toLower ['/'] = ['/'] from rfl]
  cases hm : l.map Char.toLower with
  | nil => rfl
  | cons x t =>
    rw [collapseRuns_append_last]
    by_cases hl : lastIs '/' (x :: t) = true
    · rw [if_pos hl]
    · rw [if_neg hl]
      have hne : collapseRuns '/' (x :: t) ≠ [] := collapseRuns_ne_nil (by simp)
      have h4 : lastIs '/' (collapseRuns '/' (x :: t)) = false := by
        rw [lastIs_collapseRuns]
        exact Bool.eq_false_iff.mpr hl
      have h5 : lastIs '/' (dropHeadIf '/' (collapseRuns '/' (x :: t))) = false :=
        lastIs_dropHeadIf h4
      rw [dropHeadIf_append hne, dropLastIf_append_self, dropLastIf_of_lastIs_false h5]

theorem normalizePathL_double_slash (a b : List Char) :
    normalizePathL (a ++ '/' :: '/' :: b) = normalizePathL (a ++ '/' :: b) := by
  unfold normalizePathL
  simp only [List.map_append, List.map_cons, show Char.toLower '/' = '/' from rfl,
    collapseRuns_append_double]

/-- Allowed key characters are never whitespace. -/
theorem isKeyAllowedChar_not_space {c : Char} (h : isKeyAllowedChar c = true) :
    isJsSpace c = false := by
  have hs : c ≠ ' ' ∧ c ≠ '\t' ∧ c ≠ '\n' ∧ c ≠ '\r' ∧ c ≠ '\x0b' ∧ c ≠ '\x0c' := by
    refine ⟨?_, ?_, ?_, ?_, ?_, ?_⟩ <;> rintro rfl <;> simp [isKeyAllowedChar] at h
  simp [isJsSpace, hs.1, hs.2.1, hs.2.2.1, hs.2.2.2.1, hs.2.2.2.2.1, hs.2.2.2.2.2]

/-- C7.  `normalizePath` (and hence the rate-limit key built by
`getRateLimitKey`) identifies route variants: its result only depends on the
lower-cased path, it is unchanged by adding a leading slash, a trailing
slash, or doubling an existing slash (so `/Foo` and `//foo/` normalize
identically), and its output contains only characters in `[a-z0-9/_-]`. -/
theorem normalizePath_identifies_route_variants :
    (∀ s : String, ∀ ch ∈ (normalizePath s).data, isPathAllowedChar ch = true) ∧
    (∀ s t : String, s.data.map Char.toLower = t.data.map Char.toLower →
      normalizePath s = normalizePath t) ∧
    (∀ s : String, normalizePath ("/" ++ s) = normalizePath s) ∧
    (∀ s : String, normalizePath (s ++ "/") = normalizePath s) ∧
    (∀ s t : String, normalizePath (s ++ "//" ++ t) = normalizePath (s ++ "/" ++ t)) ∧
    normalizePath "/Foo" = normalizePath "//foo/" ∧
    (∀ pfx ty ident p q : String, normalizePath p = normalizePath q →
      getRateLimitKey pfx ty ident p = getRateLimitKey pfx ty ident q) := by
  refine ⟨?_, ?_, ?_, ?_, ?_, by decide, ?_⟩
  · intro s ch hch
    have hd : (normalizePath s).data = normalizePathL s.data := rfl
    rw [hd] at hch
    unfold normalizePathL at hch
    rcases List.mem_map.mp hch with ⟨x, _, rfl⟩
    by_cases hx : isPathAllowedChar x = true
    · rw [if_pos hx]
      exact hx
    · rw [if_neg hx]
      decide
  · intro s t h
    show (⟨normalizePathL s.data⟩ : String) = ⟨normalizePathL t.data⟩
    unfold normalizePathL
    rw [h]
  · intro s
    show (⟨normalizePathL ("/" ++ s).data⟩ : String) = ⟨normalizePathL s.data⟩
    rw [show ("/" ++ s).data = '/' :: s.data from by simp [String.data_append]]
    rw [normalizePathL_cons_slash]
  · intro s
    show (⟨normalizePathL (s ++ "/").data⟩ : String) = ⟨normalizePathL s.data⟩
    rw [show (s ++ "/").data = s.data ++ ['/'] from by simp [String.data_append]]
    rw [normalizePathL_append_slash]
  · intro s t
    show (⟨normalizePathL (s ++ "//" ++ t).data⟩ : String) =
      ⟨normalizePathL (s ++ "/" ++ t).data⟩
    rw [show (s ++ "//" ++ t).data = s.data ++ '/' :: '/' :: t.data from by
      simp [String.data_append]]
    rw [show (s ++ "/" ++ t).data = s.data ++ '/' :: t.data from by
      simp [String.data_append]]
    rw [normalizePathL_double_slash]
  · intro pfx ty ident p q h
    unfold getRateLimitKey
    rw [h]

/-- Closed instance of the route-variant theorem: case and slash variants of
a login path produce the same rate-limit key. -/
theorem normalizePath_identifies_route_variants_witness :
    getRateLimitKey "rl" "global" "1.2.3.4" "/Login" =
      getRateLimitKey "rl" "global" "1.2.3.4" "//login/" :=
  normalizePath_identifies_route_variants.2.2.2.2.2.2 "rl" "global" "1.2.3.4"
    "/Login" "//login/" (by decide)

/-- C8.  Every output of `sanitizeCacheKey` contains only characters of the
restricted class `[a-zA-Z0-9:/_?&=.-]` (in particular no whitespace), has no
two adjacent underscores (whitespace runs and repeated `_` separators are
collapsed to a single `_`), and neither starts nor ends with the `_`
separator; concrete collapse/trim examples included. -/
theorem sanitizeCacheKey_restricted :
    (∀ s : String, ∀ ch ∈ (sanitizeCacheKey s).data, isKeyAllowedChar ch = true) ∧
    (∀ s : String, ∀ ch ∈ (sanitizeCacheKey s).data, isJsSpace ch = false) ∧
    (∀ s : String, noTwo '_' (sanitizeCacheKey s).data = true) ∧
    (∀ s : String, (sanitizeCacheKey s).data.head? ≠ some '_') ∧
    (∀ s : String, lastIs '_' (sanitizeCacheKey s).data = false) ∧
    sanitizeCacheKey "a  b" = "a_b" ∧ sanitizeCacheKey "_a__b!!c_" = "a_b_c" := by
  have hclass : ∀ s : String, ∀ ch ∈ (sanitizeCacheKey s).data,
      isKeyAllowedChar ch = true := by
    intro s ch hch
    have hd : (sanitizeCacheKey s).data = sanitizeCacheKeyL s.data := rfl
    rw [hd] at hch
    unfold sanitizeCacheKeyL at hch
    have h1 := mem_of_mem_collapseRuns (mem_of_mem_dropHeadIf
      (mem_of_mem_dropLastIf hch))
    rcases List.mem_map.mp h1 with ⟨x, _, rfl⟩
    by_cases hx : isKeyAllowedChar x = true
    · rw [if_pos hx]
      exact hx
    · rw [if_neg hx]
      decide
  refine ⟨hclass, ?_, ?_, ?_, ?_, by decide, by decide⟩
  · intro s ch hch
    exact isKeyAllowedChar_not_space (hclass s ch hch)
  · intro s
    show noTwo '_' (sanitizeCacheKeyL s.data) = true
    unfold sanitizeCacheKeyL
    exact noTwo_dropLastIf (noTwo_dropHeadIf (noTwo_collapseRuns _ _))
  · intro s
    show (sanitizeCacheKeyL s.data).head? ≠ some '_'
    unfold sanitizeCacheKeyL
    rcases dropLastIf_head? '_' (dropHeadIf '_' (collapseRuns '_'
        ((squashSpaces s.data).map (fun c => if isKeyAllowedChar c then c else '_'))))
      with h | h
    · rw [h]
      simp
    · rw [h]
      exact dropHeadIf_head_ne (noTwo_collapseRuns _ _)
  · intro s
    show lastIs '_' (sanitizeCacheKeyL s.data) = false
    unfold sanitizeCacheKeyL
    exact lastIs_dropLastIf (noTwo_dropHeadIf (noTwo_collapseRuns _ _))

/-! ## Redis store model

The Redis service (`redis.service.ts`) is not among the repository sources
here; its primitives are modelled from the spec, section 6, "Consumed from
the KeyValueStore collaborator".  The model tracks the single rate-limit
key named by `getRateLimitKey` for the request under consideration.
-/

/-- A stored counter: its integer value and its remaining TTL in seconds. -/
structure StoreEntry where
  count : Nat
  ttl : Nat
deriving Repr, DecidableEq

/-- Modelled from the spec: the rate-limit key's slice of the shared store.
`fails = true` represents a store outage (every operation rejects); `ops`
counts the store round-trips actually performed. -/
structure Redis where
  fails : Bool
  entry : Option StoreEntry
  ops : Nat
deriving Repr, DecidableEq

/-- Modelled from the spec: `getWithTTL(key) -> {value, ttlSeconds}`; the
value is absent for a missing key, whose TTL is reported negative. -/
def getKeyWithTTL (r : Redis) : Except Unit ((Option Nat × Int) × Redis) :=
  if r.fails then .error ()
  else
    match r.entry with
    | none => .ok ((none, -2), { r with ops := r.ops + 1 })
    | some e => .ok ((some e.count, (e.ttl : Int)), { r with ops := r.ops + 1 })

/-- Modelled from the spec: `set(key, value, ttlSeconds)`. -/
def setKey (v ttlSeconds : Nat) (r : Redis) : Except Unit Redis :=
  if r.fails then .error ()
  else .ok { r with entry := some ⟨v, ttlSeconds⟩, ops := r.ops + 1 }

/-- Modelled from the spec: `incrementWithTTL(key, ttlSeconds) -> newValue`
creates the key with the TTL on first call and increments WITHOUT resetting
the TTL on subsequent calls. -/
def incrKey (ttlSeconds : Nat) (r : Redis) : Except Unit (Nat × Redis) :=
  if r.fails then .error ()
  else
    match r.entry with
    | none => .ok (1, { r with entry := some ⟨1, ttlSeconds⟩, ops := r.ops + 1 })
    | some e =>
      .ok (e.count + 1, { r with entry := some ⟨e.count + 1, e.ttl⟩, ops := r.ops + 1 })

/-! ## Rate limiter middleware -/

/-- Modelled from the spec (section 7): the client-facing 429 error shape
(`TooManyRequestsError`) carrying the limit and a retry-after in seconds. -/
structure TooManyRequestsErr where
  statusCode : Nat
  message : String
  limit : Nat
  retryAfter : Nat
deriving Repr, DecidableEq

/-- How the middleware terminates: pass through, deny with a 429-shaped
error, or pass a generic error. -/
inductive Outcome where
  | next
  | nextTooMany (e : TooManyRequestsErr)
  | nextGenericError (msg : String)
deriving Repr, DecidableEq

/-- `RateLimitInfo`; `resetMs` is `resetTime - Date.now()` (now = 0). -/
structure RateLimitInfo where
  current : Nat
  limit : Nat
  remaining : Int
  resetMs : Nat
deriving Repr, DecidableEq

/-- `Math.ceil (a / b)` on naturals. -/
def ceilDiv (a b : Nat) : Nat := (a + b - 1) / b

/-- Set rate limit headers on response (`setRateLimitHeaders`): the three
standard headers, plus `Retry-After` when no requests remain. -/
def setRateLimitHeaders (standardHeaders : Bool) (info : RateLimitInfo) :
    List (String × Int) :=
  if standardHeaders then
    [("X-RateLimit-Limit", (info.limit : Int)),
     ("X-RateLimit-Remaining", max 0 info.remaining),
     ("X-RateLimit-Reset", (info.resetMs : Int))] ++
      (if info.remaining ≤ 0 then
        [("Retry-After", (max 1 (ceilDiv info.resetMs 1000) : Int))]
      else [])
  else []

/-- Get current rate limit status (`getRateLimitStatus`). -/
def getRateLimitStatus (limit windowMs : Nat) (r : Redis) :
    Except Unit (RateLimitInfo × Redis) := do
  let ((value, ttl), r) ← getKeyWithTTL r
  let current := value.getD 0
  let remaining : Int := max 0 ((limit : Int) - current)
  let resetMs : Nat := if 0 < ttl then ttl.toNat * 1000 else windowMs
  return (⟨current, limit, remaining, resetMs⟩, r)

/-- Handle standard rate limiting (`handleStandardRateLimit`): first request
sets the counter to 1 with the window TTL; at or above the limit deny with
retry-after from the remaining TTL and do not increment; otherwise increment
and continue. -/
def handleStandardRateLimit (limit windowMs : Nat) (message : String)
    (standardHeaders : Bool) (r : Redis) :
    Except Unit (Outcome × List (String × Int) × Redis) := do
  let ttlSeconds := windowMs / 1000
  let (status, r) ← getRateLimitStatus limit windowMs r
  if status.current = 0 then
    let r ← setKey 1 ttlSeconds r
    return (.next,
      setRateLimitHeaders standardHeaders ⟨1, limit, (limit : Int) - 1, windowMs⟩, r)
  else if limit ≤ status.current then
    return (.nextTooMany ⟨429, message, limit, ceilDiv status.resetMs 1000⟩,
      setRateLimitHeaders standardHeaders status, r)
  else
    let (newCount, r) ← incrKey ttlSeconds r
    return (.next,
      setRateLimitHeaders standardHeaders
        ⟨newCount, limit, (limit : Int) - newCount, status.resetMs⟩, r)

/-- State of the one-shot interceptor armed by the count-on-failure path:
the `hasIncremented` flag of the source, plus an observation counter for
how many times the guarded increment has run. -/
structure InterceptState where
  hasIncremented : Bool
  increments : Nat
deriving Repr, DecidableEq

/-- The `incrementOnError` closure run by the patched `res.json`/`res.send`:
skip when already incremented or the response status is below 400; otherwise
set the one-shot flag, then increment (store errors caught and swallowed). -/
def incrementOnError (ttlSeconds statusCode : Nat) :
    InterceptState × Redis → InterceptState × Redis :=
  fun p =>
    if p.1.hasIncremented || statusCode < 400 then p
    else
      let st : InterceptState := ⟨true, p.1.increments + 1⟩
      match incrKey ttlSeconds p.2 with
      | .error _ => (st, p.2)
      | .ok (_, r') => (st, r')

/-- Handle rate limiting for routes that skip successful requests
(`handleSkipSuccessfulRequests`): decide from the current status only,
never increment inline; the final Bool reports whether the response
interceptor was armed. -/
def handleSkipSuccessfulRequests (limit windowMs : Nat) (message : String)
    (r : Redis) :
    Except Unit (Outcome × List (String × Int) × Redis × Bool) := do
  let (status, r) ← getRateLimitStatus limit windowMs r
  let headers := setRateLimitHeaders true status
  if limit ≤ status.current then
    return (.nextTooMany ⟨429, message, limit, ceilDiv status.resetMs 1000⟩,
      headers, r, false)
  else
    return (.next, headers, r, true)

/-- Per-policy configuration (`RateLimitConfig` with the defaults the
middleware's destructuring applies). -/
structure RLPolicy where
  windowMs : Nat
  max : Nat
  bypass : Bool
  failClosed : Bool
  message : String
  skipSuccessfulRequests : Bool
  standardHeaders : Bool
deriving Repr, DecidableEq

/-- The middleware returned by the `rateLimiter` factory, for one request:
bypass short-circuits; an unresolvable identifier under failClosed passes a
generic error; otherwise the configured strategy runs, and any store error
is caught: deny with retry-after `windowMs/1000` under failClosed, allow
through otherwise. -/
def rateLimiter (cfg : RLPolicy) (clientIp : Option String) (r : Redis) :
    Outcome × List (String × Int) × Redis × Bool :=
  if cfg.bypass then (.next, [], r, false)
  else
    let identifier := clientIp.getD "unknown"
    if identifier = "unknown" ∧ cfg.failClosed then
      (.nextGenericError "Cannot determine client identifier", [], r, false)
    else
      let result :=
        if cfg.skipSuccessfulRequests then
          handleSkipSuccessfulRequests cfg.max cfg.windowMs cfg.message r
        else
          (handleStandardRateLimit cfg.max cfg.windowMs cfg.message
            cfg.standardHeaders r).map (fun x => (x.1, x.2.1, x.2.2, false))
      match result with
      | .ok x => x
      | .error _ =>
        if cfg.failClosed then
          (.nextTooMany ⟨429, "Rate limit check failed", cfg.max, cfg.windowMs / 1000⟩,
            [], r, false)
        else (.next, [], r, false)

/-! ## Step lemmas for the standard limiter -/

theorem hsrl_absent (limit windowMs : Nat) (message : String) (sh : Bool)
    (r : Redis) (hf : r.fails = false) (he : r.entry = none) :
    handleStandardRateLimit limit windowMs message sh r =
      .ok (.next,
        setRateLimitHeaders sh ⟨1, limit, (limit : Int) - 1, windowMs⟩,
        { r with entry := some ⟨1, windowMs / 1000⟩, ops := r.ops + 1 + 1 }) := by
  simp [handleStandardRateLimit, getRateLimitStatus, getKeyWithTTL, setKey,
    hf, he, Except.bind, bind, pure, Except.pure]

theorem hsrl_deny (limit windowMs : Nat) (message : String) (sh : Bool)
    (r : Redis) (c t : Nat) (hf : r.fails = false) (he : r.entry = some ⟨c, t⟩)
    (hc : limit ≤ c) (h0 : 0 < c) :
    handleStandardRateLimit limit windowMs message sh r =
      .ok (.nextTooMany ⟨429, message, limit,
          ceilDiv (if 0 < t then t * 1000 else windowMs) 1000⟩,
        setRateLimitHeaders sh
          ⟨c, limit, max 0 ((limit : Int) - c), if 0 < t then t * 1000 else windowMs⟩,
        { r with ops := r.ops + 1 }) := by
  simp [handleStandardRateLimit, getRateLimitStatus, getKeyWithTTL,
    hf, he, Except.bind, bind, pure, Except.pure, Nat.pos_iff_ne_zero.mp h0, hc]

theorem hsrl_count (limit windowMs : Nat) (message : String) (sh : Bool)
    (r : Redis) (c t : Nat) (hf : r.fails = false) (he : r.entry = some ⟨c, t⟩)
    (h0 : 0 < c) (hc : c < limit) :
    handleStandardRateLimit limit windowMs message sh r =
      .ok (.next,
        setRateLimitHeaders sh
          ⟨c + 1, limit, (limit : Int) - (c + 1),
            if 0 < t then t * 1000 else windowMs⟩,
        { r with entry := some ⟨c + 1, t⟩, ops := r.ops + 1 + 1 }) := by
  simp [handleStandardRateLimit, getRateLimitStatus, getKeyWithTTL, incrKey,
    hf, he, Except.bind, bind, pure, Except.pure, Nat.pos_iff_ne_zero.mp h0,
    Nat.not_le.mpr hc]

/-! ## Sequential requests through the standard limiter (claim C1) -/

/-- Redis state after `n` sequential requests from one identifier on one
route through the standard limiter, starting from an absent key, all within
one window. -/
def runStandard (limit windowMs : Nat) : Nat → Redis
  | 0 => ⟨false, none, 0⟩
  | n + 1 =>
    match handleStandardRateLimit limit windowMs "Too many requests" true
        (runStandard limit windowMs n) with
    | .ok x => x.2.2
    | .error _ => runStandard limit windowMs n

/-- Outcome and headers of the (i+1)-st sequential standard request. -/
def stdResultAt (limit windowMs i : Nat) : Outcome × List (String × Int) :=
  match handleStandardRateLimit limit windowMs "Too many requests" true
      (runStandard limit windowMs i) with
  | .ok x => (x.1, x.2.1)
  | .error _ => (.nextGenericError "", [])

theorem runStandard_state (limit windowMs : Nat) (hl : 0 < limit) :
    ∀ n, (runStandard limit windowMs n).fails = false ∧
      (runStandard limit windowMs n).entry =
        (if n = 0 then none else some ⟨min n limit, windowMs / 1000⟩) := by
  intro n
  induction n with
  | zero => exact ⟨rfl, rfl⟩
  | succ m ih =>
    obtain ⟨ihf, ihe⟩ := ih
    by_cases hm : m = 0
    · subst hm
      simp only [if_pos rfl] at ihe
      show (runStandard limit windowMs 1).fails = false ∧ _
      have hstep := hsrl_absent limit windowMs "Too many requests" true
        (runStandard limit windowMs 0) ihf ihe
      rw [show runStandard limit windowMs 0 = ⟨false, none, 0⟩ from rfl] at hstep
      constructor
      · show (runStandard limit windowMs (0 + 1)).fails = false
        simp [runStandard, hstep]
      · show (runStandard limit windowMs (0 + 1)).entry = _
        simp [runStandard, hstep, Nat.min_eq_left hl]
    · rw [if_neg hm] at ihe
      by_cases hml : m < limit
      · have hmin : min m limit = m := Nat.min_eq_left (Nat.le_of_lt hml)
        rw [hmin] at ihe
        have hstep := hsrl_count limit windowMs "Too many requests" true
          (runStandard limit windowMs m) m (windowMs / 1000) ihf ihe
          (Nat.pos_of_ne_zero hm) hml
        constructor
        · show (runStandard limit windowMs (m + 1)).fails = false
          simp [runStandard, hstep, ihf]
        · show (runStandard limit windowMs (m + 1)).entry = _
          simp only [runStandard, hstep]
          have : min (m + 1) limit = m + 1 := Nat.min_eq_left hml
          simp [this]
      · have hlm : limit ≤ m := Nat.le_of_not_lt hml
        have hmin : min m limit = limit := Nat.min_eq_right hlm
        rw [hmin] at ihe
        have hstep := hsrl_deny limit windowMs "Too many requests" true
          (runStandard limit windowMs m) limit (windowMs / 1000) ihf ihe
          le_rfl hl
        constructor
        · show (runStandard limit windowMs (m + 1)).fails = false
          simp [runStandard, hstep, ihf]
        · show (runStandard limit windowMs (m + 1)).entry = _
          have : min (m + 1) limit = limit := Nat.min_eq_right (Nat.le_succ_of_le hlm)
          simp [runStandard, hstep, ihe, this]

/-- C1.  Standard (count-always) policy with limit N ≥ 1 and window W ≥ 1s,
sequential requests from one identifier on one route starting from an absent
counter: each of the first N requests is allowed with the remaining header
taking N-1, N-2, ..., 0; every further request within the window is denied
with a 429 TooManyRequests error carrying the limit and a retryAfter of at
most W seconds, without incrementing the counter; and from an absent key
(window expired) a request is allowed again with remaining = N-1. -/
theorem standard_policy_counting (limit windowMs : Nat)
    (hl : 0 < limit) (hw : 1000 ≤ windowMs) :
    (∀ i, i < limit →
      (stdResultAt limit windowMs i).1 = .next ∧
      (stdResultAt limit windowMs i).2.get? 1 =
        some ("X-RateLimit-Remaining", (limit : Int) - (i + 1))) ∧
    (∀ j, limit ≤ j →
      (stdResultAt limit windowMs j).1 =
        .nextTooMany ⟨429, "Too many requests", limit, windowMs / 1000⟩ ∧
      (windowMs / 1000) * 1000 ≤ windowMs ∧
      (runStandard limit windowMs (j + 1)).entry =
        (runStandard limit windowMs j).entry) ∧
    (∀ r : Redis, r.fails = false → r.entry = none →
      handleStandardRateLimit limit windowMs "Too many requests" true r =
        .ok (.next,
          setRateLimitHeaders true ⟨1, limit, (limit : Int) - 1, windowMs⟩,
          { r with entry := some ⟨1, windowMs / 1000⟩, ops := r.ops + 1 + 1 }) ∧
      (setRateLimitHeaders true ⟨1, limit, (limit : Int) - 1, windowMs⟩).get? 1 =
        some ("X-RateLimit-Remaining", (limit : Int) - 1)) := by
  have hW1 : 0 < windowMs / 1000 := Nat.div_pos hw (by norm_num)
  have hRem1 : (setRateLimitHeaders true ⟨1, limit, (limit : Int) - 1, windowMs⟩).get? 1 =
      some ("X-RateLimit-Remaining", (limit : Int) - 1) := by
    simp only [setRateLimitHeaders, if_true]
    have : max 0 ((limit : Int) - 1) = (limit : Int) - 1 := by omega
    simp [this]
  refine ⟨?_, ?_, ?_⟩
  · intro i hi
    obtain ⟨hf, he⟩ := runStandard_state limit windowMs hl i
    by_cases hi0 : i = 0
    · subst hi0
      rw [if_pos rfl] at he
      have hstep := hsrl_absent limit windowMs "Too many requests" true
        (runStandard limit windowMs 0) hf he
      constructor
      · simp [stdResultAt, hstep]
      · simp only [stdResultAt, hstep]
        simpa using hRem1
    · rw [if_neg hi0, Nat.min_eq_left (Nat.le_of_lt hi)] at he
      have hstep := hsrl_count limit windowMs "Too many requests" true
        (runStandard limit windowMs i) i (windowMs / 1000) hf he
        (Nat.pos_of_ne_zero hi0) hi
      constructor
      · simp [stdResultAt, hstep]
      · simp only [stdResultAt, hstep]
        simp only [setRateLimitHeaders, if_true]
        have : max 0 ((limit : Int) - (i + 1)) = (limit : Int) - (i + 1) := by omega
        simp [this]
  · intro j hj
    obtain ⟨hf, he⟩ := runStandard_state limit windowMs hl j
    have hj0 : j ≠ 0 := by omega
    rw [if_neg hj0, Nat.min_eq_right hj] at he
    have hstep := hsrl_deny limit windowMs "Too many requests" true
      (runStandard limit windowMs j) limit (windowMs / 1000) hf he le_rfl hl
    have hret : ceilDiv (if 0 < windowMs / 1000 then windowMs / 1000 * 1000 else windowMs)
        1000 = windowMs / 1000 := by
      rw [if_pos hW1]
      unfold ceilDiv
      omega
    refine ⟨?_, Nat.div_mul_le_self windowMs 1000, ?_⟩
    · simp [stdResultAt, hstep, hret]
    · simp [runStandard, hstep]
  · intro r hf he
    exact ⟨hsrl_absent limit windowMs "Too many requests" true r hf he, hRem1⟩

/-- Closed instance of the counting theorem at the spec's example policy
(limit 3, window 60000ms): request 4 is denied with retryAfter 60 and does
not increment the stored counter. -/
theorem standard_policy_counting_witness :
    (stdResultAt 3 60000 3).1 =
      .nextTooMany ⟨429, "Too many requests", 3, 60⟩ ∧
    (runStandard 3 60000 4).entry = (runStandard 3 60000 3).entry ∧
    (stdResultAt 3 60000 0).2.get? 1 = some ("X-RateLimit-Remaining", 2) := by
  have h := standard_policy_counting 3 60000 (by norm_num) (by norm_num)
  exact ⟨(h.2.1 3 le_rfl).1, (h.2.1 3 le_rfl).2.2, (h.1 0 (by norm_num)).2⟩

/-! ## Sequential requests through the count-on-failure limiter (claim C2) -/

/-- One full request through the skip-successful limiter: the check phase,
then — when the interceptor was armed — the response finalizer running
`incrementOnError` with the terminal status code. -/
def skipStep (limit windowMs : Nat) (r : Redis) (statusCode : Nat) :
    Outcome × Redis :=
  match handleSkipSuccessfulRequests limit windowMs "Too many requests" r with
  | .ok x =>
    if x.2.2.2 then
      (x.1, (incrementOnError (windowMs / 1000) statusCode (⟨false, 0⟩, x.2.2.1)).2)
    else (x.1, x.2.2.1)
  | .error _ => (.nextGenericError "", r)

/-- Redis state after a sequence of requests with the given terminal status
codes, starting from an absent key. -/
def runSkip (limit windowMs : Nat) (statuses : List Nat) : Redis :=
  statuses.foldl (fun r s => (skipStep limit windowMs r s).2) ⟨false, none, 0⟩

theorem skipStep_absent_success (limit windowMs s : Nat) (r : Redis)
    (hf : r.fails = false) (he : r.entry = none) (hl : 0 < limit)
    (hs : s < 400) :
    skipStep limit windowMs r s = (.next, { r with ops := r.ops + 1 }) := by
  simp [skipStep, handleSkipSuccessfulRequests, getRateLimitStatus, getKeyWithTTL,
    incrementOnError, hf, he, Except.bind, bind, pure, Except.pure,
    Nat.not_le.mpr hl, hs]

theorem skipStep_absent_failure (limit windowMs s : Nat) (r : Redis)
    (hf : r.fails = false) (he : r.entry = none) (hl : 0 < limit)
    (hs : 400 ≤ s) :
    skipStep limit windowMs r s =
      (.next, { r with entry := some ⟨1, windowMs / 1000⟩, ops := r.ops + 1 + 1 }) := by
  simp [skipStep, handleSkipSuccessfulRequests, getRateLimitStatus, getKeyWithTTL,
    incrementOnError, incrKey, hf, he, Except.bind, bind, pure, Except.pure,
    Nat.not_le.mpr hl, Nat.not_lt.mpr hs]

theorem skipStep_some_success (limit windowMs s c t : Nat) (r : Redis)
    (hf : r.fails = false) (he : r.entry = some ⟨c, t⟩) (hc : c < limit)
    (hs : s < 400) :
    skipStep limit windowMs r s = (.next, { r with ops := r.ops + 1 }) := by
  simp [skipStep, handleSkipSuccessfulRequests, getRateLimitStatus, getKeyWithTTL,
    incrementOnError, hf, he, Except.bind, bind, pure, Except.pure,
    Nat.not_le.mpr hc, hs]

theorem skipStep_some_failure (limit windowMs s c t : Nat) (r : Redis)
    (hf : r.fails = false) (he : r.entry = some ⟨c, t⟩) (hc : c < limit)
    (hs : 400 ≤ s) :
    skipStep limit windowMs r s =
      (.next, { r with entry := some ⟨c + 1, t⟩, ops := r.ops + 1 + 1 }) := by
  simp [skipStep, handleSkipSuccessfulRequests, getRateLimitStatus, getKeyWithTTL,
    incrementOnError, incrKey, hf, he, Except.bind, bind, pure, Except.pure,
    Nat.not_le.mpr hc, Nat.not_lt.mpr hs]

theorem skipStep_denied (limit windowMs s c t : Nat) (r : Redis)
    (hf : r.fails = false) (he : r.entry = some ⟨c, t⟩) (hc : limit ≤ c) :
    skipStep limit windowMs r s =
      (.nextTooMany ⟨429, "Too many requests", limit,
          ceilDiv (if 0 < t then t * 1000 else windowMs) 1000⟩,
        { r with ops := r.ops + 1 }) := by
  simp [skipStep, handleSkipSuccessfulRequests, getRateLimitStatus, getKeyWithTTL,
    hf, he, Except.bind, bind, pure, Except.pure, hc]

theorem runSkip_allSuccess (limit windowMs : Nat) (hl : 0 < limit) :
    ∀ (statuses : List Nat) (r : Redis), r.fails = false → r.entry = none →
      (∀ s ∈ statuses, s < 400) →
      (statuses.foldl (fun r s => (skipStep limit windowMs r s).2) r).fails = false ∧
      (statuses.foldl (fun r s => (skipStep limit windowMs r s).2) r).entry = none := by
  intro statuses
  induction statuses with
  | nil => exact fun r hf he _ => ⟨hf, he⟩
  | cons s ss ih =>
    intro r hf he hall
    have hs : s < 400 := hall s (List.mem_cons_self s ss)
    have hstep := skipStep_absent_success limit windowMs s r hf he hl hs
    simp only [List.foldl_cons, hstep]
    exact ih _ hf he (fun x hx => hall x (List.mem_cons_of_mem s hx))

theorem runSkip_failures (limit windowMs s : Nat) (hl : 0 < limit)
    (hs : 400 ≤ s) :
    ∀ n, n ≤ limit →
      (runSkip limit windowMs (List.replicate n s)).fails = false ∧
      (runSkip limit windowMs (List.replicate n s)).entry =
        (if n = 0 then none else some ⟨n, windowMs / 1000⟩) := by
  intro n
  induction n with
  | zero => exact fun _ => ⟨rfl, rfl⟩
  | succ m ih =>
    intro hm
    obtain ⟨ihf, ihe⟩ := ih (Nat.le_of_succ_le hm)
    have hfold : runSkip limit windowMs (List.replicate (m + 1) s) =
        (skipStep limit windowMs (runSkip limit windowMs (List.replicate m s)) s).2 := by
      rw [runSkip, List.replicate_succ', List.foldl_append]
      rfl
    by_cases hm0 : m = 0
    · subst hm0
      rw [if_pos rfl] at ihe
      have hstep := skipStep_absent_failure limit windowMs s _ ihf ihe hl hs
      rw [hfold, hstep]
      exact ⟨ihf, by simp⟩
    · rw [if_neg hm0] at ihe
      have hstep := skipStep_some_failure limit windowMs s m (windowMs / 1000) _
        ihf ihe (Nat.lt_of_succ_le hm) hs
      rw [hfold, hstep]
      exact ⟨ihf, by simp⟩

/-- C2.  Count-on-failure (skipSuccessfulRequests) policy with limit N:
the decision is read from the stored count with no inline increment, so a
request terminating with status < 400 leaves the counter untouched and any
run of successful requests from an absent key is never denied; each request
terminating with status ≥ 400 increments the counter by exactly one, so
after N consecutive failing requests the next request is denied whatever
its own status would have been. -/
theorem count_on_failure_policy (limit windowMs : Nat)
    (hl : 0 < limit) (hw : 1000 ≤ windowMs) :
    (∀ (r : Redis) (s : Nat), r.fails = false → s < 400 →
      (skipStep limit windowMs r s).2.entry = r.entry) ∧
    (∀ statuses : List Nat, (∀ s ∈ statuses, s < 400) →
      ∀ s, s < 400 →
        (skipStep limit windowMs (runSkip limit windowMs statuses) s).1 = .next) ∧
    (∀ (r : Redis) (c t s : Nat), r.fails = false → r.entry = some ⟨c, t⟩ →
      c < limit → 400 ≤ s →
      (skipStep limit windowMs r s).2.entry = some ⟨c + 1, t⟩) ∧
    (∀ (r : Redis) (s : Nat), r.fails = false → r.entry = none → 400 ≤ s →
      (skipStep limit windowMs r s).2.entry = some ⟨1, windowMs / 1000⟩) ∧
    (∀ s s' : Nat, 400 ≤ s →
      (skipStep limit windowMs (runSkip limit windowMs (List.replicate limit s)) s').1 =
        .nextTooMany ⟨429, "Too many requests", limit, windowMs / 1000⟩) := by
  have hW1 : 0 < windowMs / 1000 := Nat.div_pos hw (by norm_num)
  refine ⟨?_, ?_, ?_, ?_, ?_⟩
  · intro r s hf hs
    cases he : r.entry with
    | none =>
      rw [skipStep_absent_success limit windowMs s r hf he hl hs]
      simp [he]
    | some e =>
      by_cases hc : e.count < limit
      · rw [skipStep_some_success limit windowMs s e.count e.ttl r hf (by simp [he]) hc hs]
        simp [he]
      · rw [skipStep_denied limit windowMs s e.count e.ttl r hf (by simp [he])
          (Nat.le_of_not_lt hc)]
        simp [he]
  · intro statuses hall s hs
    obtain ⟨hf, he⟩ := runSkip_allSuccess limit windowMs hl statuses
      ⟨false, none, 0⟩ rfl rfl hall
    unfold runSkip
    rw [skipStep_absent_success limit windowMs s _ hf he hl hs]
  · intro r c t s hf he hc hs
    rw [skipStep_some_failure limit windowMs s c t r hf he hc hs]
  · intro r s hf he hs
    rw [skipStep_absent_failure limit windowMs s r hf he hl hs]
  · intro s s' hs
    obtain ⟨hf, he⟩ := runSkip_failures limit windowMs s hl hs limit le_rfl
    rw [if_neg (by omega)] at he
    rw [skipStep_denied limit windowMs s' limit (windowMs / 1000) _ hf he le_rfl]
    have hret : ceilDiv (if 0 < windowMs / 1000 then windowMs / 1000 * 1000 else windowMs)
        1000 = windowMs / 1000 := by
      rw [if_pos hW1]
      unfold ceilDiv
      omega
    rw [hret]

/-- Closed instance of the count-on-failure theorem: with limit 2, two
failing requests then a third request denied; two successful requests never
counted. -/
theorem count_on_failure_policy_witness :
    (skipStep 2 60000 (runSkip 2 60000 [500, 500]) 200).1 =
      .nextTooMany ⟨429, "Too many requests", 2, 60⟩ ∧
    (skipStep 2 60000 (runSkip 2 60000 [200, 204]) 200).1 = .next := by
  have h := count_on_failure_policy 2 60000 (by norm_num) (by norm_num)
  constructor
  · have := h.2.2.2.2 500 200 (by norm_num)
    simpa using this
  · exact h.2.1 [200, 204] (by decide) 200 (by norm_num)

/-! ## Store outage and bypass at the middleware level (claims C5, C10) -/

/-- C5.  If a store operation during the rate-limit check throws, the catch
clause decides: under failClosed the request is denied with a 429-shaped
error whose retryAfter is the configured window in (floored) seconds; a
non-failClosed policy lets the request through to the next handler with the
store slice unchanged. -/
theorem store_failure_fail_open_closed (cfg : RLPolicy) (ip : String) (r : Redis)
    (hb : cfg.bypass = false) (hip : ip ≠ "unknown") (hf : r.fails = true) :
    rateLimiter cfg (some ip) r =
      (if cfg.failClosed then
        (.nextTooMany ⟨429, "Rate limit check failed", cfg.max, cfg.windowMs / 1000⟩,
          [], r, false)
      else (.next, [], r, false)) := by
  simp [rateLimiter, handleSkipSuccessfulRequests, handleStandardRateLimit,
    getRateLimitStatus, getKeyWithTTL, hb, hip, hf, Except.bind, bind,
    Except.map, pure, Except.pure]

/-- Closed instance of the store-outage theorem: with an auth-like
failClosed policy the request is denied with retryAfter 900; with the
global fail-open policy it passes through. -/
theorem store_failure_fail_open_closed_witness :
    rateLimiter ⟨900000, 50, false, true, "auth limit", true, true⟩
        (some "1.2.3.4") ⟨true, none, 0⟩ =
      (.nextTooMany ⟨429, "Rate limit check failed", 50, 900⟩, [],
        ⟨true, none, 0⟩, false) ∧
    rateLimiter ⟨60000, 100, false, false, "global limit", false, true⟩
        (some "1.2.3.4") ⟨true, none, 0⟩ =
      (.next, [], ⟨true, none, 0⟩, false) := by
  constructor
  · have h := store_failure_fail_open_closed
      ⟨900000, 50, false, true, "auth limit", true, true⟩ "1.2.3.4"
      ⟨true, none, 0⟩ rfl (by decide) rfl
    simpa using h
  · have h := store_failure_fail_open_closed
      ⟨60000, 100, false, false, "global limit", false, true⟩ "1.2.3.4"
      ⟨true, none, 0⟩ rfl (by decide) rfl
    simpa using h

/-- C10.  A policy configured with bypass = true passes every request
straight through: outcome `next`, no headers set, no interceptor armed, and
the store slice — including its round-trip counter `ops` — returned
untouched, whatever counts it holds. -/
theorem bypass_passes_through (cfg : RLPolicy) (ip : Option String) (r : Redis)
    (hb : cfg.bypass = true) :
    rateLimiter cfg ip r = (.next, [], r, false) := by
  simp [rateLimiter, hb]

/-- Closed instance of the bypass theorem: even with a stored count far above
the limit the request passes through and the store is untouched. -/
theorem bypass_passes_through_witness :
    rateLimiter ⟨60000, 1, true, true, "m", false, true⟩ (some "1.2.3.4")
        ⟨false, some ⟨999, 60⟩, 7⟩ =
      (.next, [], ⟨false, some ⟨999, 60⟩, 7⟩, false) :=
  bypass_passes_through ⟨60000, 1, true, true, "m", false, true⟩
    (some "1.2.3.4") ⟨false, some ⟨999, 60⟩, 7⟩ rfl

/-! ## One-shot response interception (claim C6) -/

/-- The one-shot state of cacheMiddleware's `res.json` override: the
`intercepted` flag of the source plus an observation counter of cache-fill
writes. -/
structure CacheFillState where
  intercepted : Bool
  writes : Nat
deriving Repr, DecidableEq

/-- cacheMiddleware's `res.json` override: on the first call with a 2xx
status, set the one-shot flag and perform the cache write. -/
def cacheFillJson (st : CacheFillState) (statusCode : Nat) : CacheFillState :=
  if !st.intercepted && (200 ≤ statusCode) && (statusCode < 300) then
    ⟨true, st.writes + 1⟩
  else st

/-- A terminal-path invocation: the limiter's patched `res.json`/`res.send`
(json internally calling send yields two consecutive events), or the cache
middleware's patched `res.json`. -/
inductive TermEvent where
  | limiterFinalize (statusCode : Nat)
  | cacheJson (statusCode : Nat)
deriving Repr, DecidableEq

/-- One terminal-path invocation acting on the two independent one-shot
guards. -/
def termStep (ttlSeconds : Nat) :
    (InterceptState × Redis) × CacheFillState → TermEvent →
      (InterceptState × Redis) × CacheFillState
  | (ir, cf), .limiterFinalize s => (incrementOnError ttlSeconds s ir, cf)
  | (ir, cf), .cacheJson s => (ir, cacheFillJson cf s)

/-- All terminal-path invocations of one request, starting from both guards
unset. -/
def runTerm (ttlSeconds : Nat) (r : Redis) (events : List TermEvent) :
    (InterceptState × Redis) × CacheFillState :=
  events.foldl (termStep ttlSeconds) ((⟨false, 0⟩, r), ⟨false, 0⟩)

/-- Unused budget of a one-shot guard. -/
def guardBudget (b : Bool) : Nat := if b then 0 else 1

theorem incrementOnError_sum (ttl s : Nat) (p : InterceptState × Redis) :
    (incrementOnError ttl s p).1.increments +
        guardBudget (incrementOnError ttl s p).1.hasIncremented ≤
      p.1.increments + guardBudget p.1.hasIncremented := by
  unfold incrementOnError
  split
  · exact le_rfl
  · next h =>
    have hflag : p.1.hasIncremented = false := by
      cases hv : p.1.hasIncremented with
      | false => rfl
      | true => exact absurd (by simp [hv]) h
    cases hi : incrKey ttl p.2 with
    | error e => simp [guardBudget, hflag]
    | ok v => simp [guardBudget, hflag]

theorem cacheFillJson_sum (s : Nat) (cf : CacheFillState) :
    (cacheFillJson cf s).writes + guardBudget (cacheFillJson cf s).intercepted ≤
      cf.writes + guardBudget cf.intercepted := by
  unfold cacheFillJson
  split
  · next h =>
    have hflag : cf.intercepted = false := by
      cases hv : cf.intercepted with
      | false => rfl
      | true => simp [cacheFillJson, hv] at h
    simp [guardBudget, hflag]
  · exact le_rfl

theorem runTerm_sum (ttlSeconds : Nat) :
    ∀ (events : List TermEvent) (st : (InterceptState × Redis) × CacheFillState),
      (events.foldl (termStep ttlSeconds) st).1.1.increments +
          guardBudget (events.foldl (termStep ttlSeconds) st).1.1.hasIncremented ≤
        st.1.1.increments + guardBudget st.1.1.hasIncremented ∧
      (events.foldl (termStep ttlSeconds) st).2.writes +
          guardBudget (events.foldl (termStep ttlSeconds) st).2.intercepted ≤
        st.2.writes + guardBudget st.2.intercepted := by
  intro events
  induction events with
  | nil => exact fun st => ⟨le_rfl, le_rfl⟩
  | cons e rest ih =>
    intro st
    obtain ⟨ih1, ih2⟩ := ih (termStep ttlSeconds st e)
    rw [List.foldl_cons]
    cases e with
    | limiterFinalize s =>
      refine ⟨le_trans ih1 ?_, le_trans ih2 ?_⟩
      · obtain ⟨ir, cf⟩ := st
        exact incrementOnError_sum ttlSeconds s ir
      · obtain ⟨ir, cf⟩ := st
        exact le_rfl
    | cacheJson s =>
      refine ⟨le_trans ih1 ?_, le_trans ih2 ?_⟩
      · obtain ⟨ir, cf⟩ := st
        exact le_rfl
      · obtain ⟨ir, cf⟩ := st
        exact cacheFillJson_sum s cf

/-- C6.  Whatever sequence of terminal-path invocations fires on one request
— repeated json/send calls on the count-on-failure limiter interleaved with
repeated json calls on the cache middleware — the limiter's guarded counter
increment runs at most once (and only with its one-shot flag set), and the
cache-fill write runs at most once under its own independent guard. -/
theorem one_shot_interception (ttlSeconds : Nat) (r : Redis)
    (events : List TermEvent) :
    (runTerm ttlSeconds r events).1.1.increments ≤ 1 ∧
    ((runTerm ttlSeconds r events).1.1.hasIncremented = false →
      (runTerm ttlSeconds r events).1.1.increments = 0) ∧
    (runTerm ttlSeconds r events).2.writes ≤ 1 ∧
    ((runTerm ttlSeconds r events).2.intercepted = false →
      (runTerm ttlSeconds r events).2.writes = 0) := by
  obtain ⟨h1, h2⟩ := runTerm_sum ttlSeconds events ((⟨false, 0⟩, r), ⟨false, 0⟩)
  have hr : runTerm ttlSeconds r events =
      events.foldl (termStep ttlSeconds) ((⟨false, 0⟩, r), ⟨false, 0⟩) := rfl
  simp only [guardBudget] at h1 h2
  have e1 : (if (false : Bool) = true then (0 : Nat) else 1) = 1 := rfl
  rw [e1] at h1 h2
  refine ⟨?_, ?_, ?_, ?_⟩
  · rw [hr]
    split at h1 <;> omega
  · intro hb
    rw [hr] at hb ⊢
    rw [hb] at h1
    simp at h1
    omega
  · rw [hr]
    split at h2 <;> omega
  · intro hb
    rw [hr] at hb ⊢
    rw [hb] at h2
    simp at h2
    omega

/-- Closed instance of the one-shot theorem: two failing-path finalizer
calls plus two cache json calls increment at most once; two successful-path
finalizer calls never increment. -/
theorem one_shot_interception_witness :
    (runTerm 60 ⟨false, none, 0⟩
        [.limiterFinalize 500, .limiterFinalize 500, .cacheJson 200,
          .cacheJson 201]).1.1.increments ≤ 1 ∧
    (runTerm 60 ⟨false, none, 0⟩
        [.limiterFinalize 200, .limiterFinalize 200]).1.1.increments = 0 :=
  ⟨(one_shot_interception 60 ⟨false, none, 0⟩
      [.limiterFinalize 500, .limiterFinalize 500, .cacheJson 200,
        .cacheJson 201]).1,
   (one_shot_interception 60 ⟨false, none, 0⟩
      [.limiterFinalize 200, .limiterFinalize 200]).2.1 (by decide)⟩

/-! ## Cache store, cache service and cache middleware (claims C3, C4)

The repository holds two implementations of the cache service: the one in
`cache.service.ts` builds the full key BEFORE its try/catch, and the other
(`part_011`) guards empty inputs first.  Both are embedded.  `JSON.parse`
as `T` is an environment function and is passed as a `parse` parameter
(`none` = parse throws, which the source catches); `JSON.stringify` likewise
as `stringify`.
-/

/-- The cache's slice of the key-value store: a failure flag and a table
from full keys to stored strings; a present entry stands for an unexpired
key (TTL elapse = removal). -/
structure KV where
  fails : Bool
  table : List (String × String)
deriving Repr, DecidableEq

def kvLookup (t : List (String × String)) (k : String) : Option String :=
  match t with
  | [] => none
  | (k', v) :: rest => if k' = k then some v else kvLookup rest k

/-- Modelled from the spec: `get(key) -> string|absent`. -/
def getKey (kv : KV) (k : String) : Except String (Option String) :=
  if kv.fails then .error "store unavailable" else .ok (kvLookup kv.table k)

/-- Modelled from the spec: `set(key, value, ttlSeconds)` (a TTL that has
not yet elapsed is modelled as presence of the entry). -/
def setKeyKV (kv : KV) (k v : String) (ttlSeconds : Nat) : Except String KV :=
  if kv.fails then .error "store unavailable"
  else .ok { kv with table := (k, v) :: kv.table }

namespace CacheService

/-- `setCache` of `cache.service.ts`: the full key is built BEFORE the
try/catch (an empty namespace or key therefore throws to the caller);
store errors inside the try are swallowed. -/
def setCache (kv : KV) (pfx key value : String) (ttl : Nat) : Except String KV :=
  match buildCacheKeyE pfx key with
  | .error e => .error e
  | .ok fullKey =>
    match setKeyKV kv fullKey value ttl with
    | .error _ => .ok kv
    | .ok kv' => .ok kv'

/-- `getCache` of `cache.service.ts`: full key built BEFORE the try/catch;
store errors and parse failures inside the try degrade to `none`. -/
def getCache {T : Type} (parse : String → Option T) (kv : KV) (pfx key : String) :
    Except String (Option T) :=
  match buildCacheKeyE pfx key with
  | .error e => .error e
  | .ok fullKey =>
    match getKey kv fullKey with
    | .error _ => .ok none
    | .ok none => .ok none
    | .ok (some data) => .ok (parse data)

end CacheService

namespace CacheServiceV2

/-- `setCache` of the guarded variant: empty namespace or key is a no-op. -/
def setCache (kv : KV) (pfx key value : String) (ttl : Nat) : Except String KV :=
  if pfx = "" ∨ key = "" then .ok kv
  else
    match buildCacheKeyE pfx key with
    | .error e => .error e
    | .ok fullKey =>
      match setKeyKV kv fullKey value ttl with
      | .error _ => .ok kv
      | .ok kv' => .ok kv'

/-- `getCache` of the guarded variant: empty namespace or key returns
`none`. -/
def getCache {T : Type} (parse : String → Option T) (kv : KV) (pfx key : String) :
    Except String (Option T) :=
  if pfx = "" ∨ key = "" then .ok none
  else
    match buildCacheKeyE pfx key with
    | .error e => .error e
    | .ok fullKey =>
      match getKey kv fullKey with
      | .error _ => .ok none
      | .ok none => .ok none
      | .ok (some data) => .ok (parse data)

end CacheServiceV2

/-- `CachedResponse` stored by the cache middleware. -/
structure CachedResponse (J : Type) where
  body : J
  statusCode : Nat
  timestamp : Nat
deriving Repr, DecidableEq

/-- Result of one request through `cacheMiddleware`: the response body and
status, the headers it set, whether the downstream handler ran, and the
final store slice. -/
structure CMResult (J : Type) where
  body : J
  statusCode : Nat
  headers : List (String × String)
  handlerInvoked : Bool
  kv : KV
deriving Repr, DecidableEq

/-- `cacheMiddleware` of the cache middleware source for one GET request:
on a hit, answer from the cache with `X-Cache: HIT` and the resolved key,
without calling the handler; on a miss, set `X-Cache: MISS`, run the
handler, and — through the intercepted `res.json` — store body and status
when the response is 2xx (a failed store write is swallowed); a thrown
error is caught and the request passes through uncached. -/
def cacheMiddleware {J : Type} (stringify : CachedResponse J → String)
    (parse : String → Option (CachedResponse J)) (pfx : String) (ttl : Nat)
    (cacheKey : String) (handler : J × Nat) (now : Nat) (kv : KV) : CMResult J :=
  match CacheService.getCache parse kv pfx cacheKey with
  | .error _ => ⟨handler.1, handler.2, [], true, kv⟩
  | .ok (some cached) =>
    match buildCacheKeyE pfx cacheKey with
    | .error _ => ⟨handler.1, handler.2, [], true, kv⟩
    | .ok fullKey =>
      ⟨cached.body, if cached.statusCode = 0 then 200 else cached.statusCode,
        [("X-Cache", "HIT"), ("X-Cache-Key", fullKey)], false, kv⟩
  | .ok none =>
    let kv' :=
      if 200 ≤ handler.2 ∧ handler.2 < 300 then
        match CacheService.setCache kv pfx cacheKey
            (stringify ⟨handler.1, handler.2, now⟩) ttl with
        | .error _ => kv
        | .ok kv2 => kv2
      else kv
    ⟨handler.1, handler.2, [("X-Cache", "MISS")], true, kv'⟩

theorem buildCacheKeyE_ok {pfx key : String} (hp : pfx ≠ "") (hk : key ≠ "") :
    buildCacheKeyE pfx key = .ok (builtCacheKey pfx key) := by
  simp [buildCacheKeyE, builtCacheKey, hp, hk]

/-- C3.  A cacheable GET whose first execution yields a 2xx response stored
in the cache is, on a second identical request within the TTL (entry still
present), answered without invoking the downstream handler, with the same
body and status, an `X-Cache: HIT` header and the resolved cache key
header.  `stringify`/`parse` stand for the runtime's JSON encoding, assumed
to round-trip on the stored record. -/
theorem cache_hit_transparent {J : Type} (stringify : CachedResponse J → String)
    (parse : String → Option (CachedResponse J)) (pfx cacheKey : String)
    (ttl now now2 : Nat) (b : J) (s : Nat) (kv : KV)
    (hp : pfx ≠ "") (hk : cacheKey ≠ "") (hkv : kv.fails = false)
    (hmiss : kvLookup kv.table (builtCacheKey pfx cacheKey) = none)
    (h2xx : 200 ≤ s ∧ s < 300)
    (hround : parse (stringify ⟨b, s, now⟩) = some ⟨b, s, now⟩) :
    (cacheMiddleware stringify parse pfx ttl cacheKey (b, s) now kv).handlerInvoked
        = true ∧
    (cacheMiddleware stringify parse pfx ttl cacheKey (b, s) now kv).body = b ∧
    (cacheMiddleware stringify parse pfx ttl cacheKey (b, s) now kv).statusCode = s ∧
    (let r2 := cacheMiddleware stringify parse pfx ttl cacheKey (b, s) now2
        (cacheMiddleware stringify parse pfx ttl cacheKey (b, s) now kv).kv
     r2.handlerInvoked = false ∧ r2.body = b ∧ r2.statusCode = s ∧
     ("X-Cache", "HIT") ∈ r2.headers ∧
     ("X-Cache-Key", builtCacheKey pfx cacheKey) ∈ r2.headers) := by
  have hbk := buildCacheKeyE_ok hp hk
  have hr1 : cacheMiddleware stringify parse pfx ttl cacheKey (b, s) now kv =
      ⟨b, s, [("X-Cache", "MISS")], true,
        { kv with table := (builtCacheKey pfx cacheKey, stringify ⟨b, s, now⟩) :: kv.table }⟩ := by
    simp [cacheMiddleware, CacheService.getCache, CacheService.setCache,
      getKey, setKeyKV, hbk, hkv, hmiss, h2xx]
  have hs0 : ¬ s = 0 := by omega
  have hr2 : cacheMiddleware stringify parse pfx ttl cacheKey (b, s) now2
      ⟨kv.fails, (builtCacheKey pfx cacheKey, stringify ⟨b, s, now⟩) :: kv.table⟩ =
      ⟨b, s, [("X-Cache", "HIT"), ("X-Cache-Key", builtCacheKey pfx cacheKey)],
        false, ⟨kv.fails, (builtCacheKey pfx cacheKey, stringify ⟨b, s, now⟩) :: kv.table⟩⟩ := by
    simp [cacheMiddleware, CacheService.getCache, getKey, kvLookup, hbk, hkv,
      hround, hs0]
  rw [hr1]
  refine ⟨rfl, rfl, rfl, ?_⟩
  show (cacheMiddleware stringify parse pfx ttl cacheKey (b, s) now2
      ⟨kv.fails, (builtCacheKey pfx cacheKey, stringify ⟨b, s, now⟩) :: kv.table⟩).handlerInvoked = false ∧ _
  rw [hr2]
  simp

/-- Closed instance of the cache-hit theorem at a concrete serialization. -/
theorem cache_hit_transparent_witness :
    (let r2 := cacheMiddleware (fun _ => "payload")
        (fun t => if t = "payload" then some ⟨7, 250, 5⟩ else none)
        "users" 60 "/users?id=1" (7, 250) 9
        (cacheMiddleware (fun _ => "payload")
          (fun t => if t = "payload" then some ⟨7, 250, 5⟩ else none)
          "users" 60 "/users?id=1" (7, 250) 5 ⟨false, []⟩).kv
     r2.handlerInvoked = false ∧ r2.body = 7 ∧ r2.statusCode = 250 ∧
     ("X-Cache", "HIT") ∈ r2.headers ∧
     ("X-Cache-Key", builtCacheKey "users" "/users?id=1") ∈ r2.headers) :=
  (cache_hit_transparent (fun _ => "payload")
    (fun t => if t = "payload" then some ⟨7, 250, 5⟩ else none)
    "users" "/users?id=1" 60 5 9 7 250 ⟨false, []⟩
    (by decide) (by decide) rfl rfl (by omega) (by rfl)).2.2.2

/-- C4 (code_bug evidence).  `getCache`/`setCache` of `cache.service.ts`
throw `"Cache prefix and key are required"` to their caller when the
namespace or key is empty — the full key is built outside the try/catch —
contradicting both the spec's "never raises" contract and the code's own
"Don't throw - fail gracefully" comment; for nonempty inputs they never
throw, and the repository's guarded variant (`part_011`) never throws for
any input. -/
theorem cache_service_throws_on_empty_key :
    CacheService.getCache (fun t => some t) ⟨false, []⟩ "users" "" =
      .error "Cache prefix and key are required" ∧
    CacheService.setCache ⟨false, []⟩ "users" "" "v" 60 =
      .error "Cache prefix and key are required" ∧
    (∀ (T : Type) (parse : String → Option T) (kv : KV) (pfx key : String),
      pfx ≠ "" → key ≠ "" →
      ∃ v, CacheService.getCache parse kv pfx key = .ok v) ∧
    (∀ (kv : KV) (pfx key value : String) (ttl : Nat), pfx ≠ "" → key ≠ "" →
      ∃ kv', CacheService.setCache kv pfx key value ttl = .ok kv') ∧
    (∀ (T : Type) (parse : String → Option T) (kv : KV) (pfx key : String),
      ∃ v, CacheServiceV2.getCache parse kv pfx key = .ok v) ∧
    (∀ (kv : KV) (pfx key value : String) (ttl : Nat),
      ∃ kv', CacheServiceV2.setCache kv pfx key value ttl = .ok kv') := by
  have hget : ∀ (T : Type) (parse : String → Option T) (kv : KV) (pfx key : String),
      pfx ≠ "" → key ≠ "" → ∃ v, CacheService.getCache parse kv pfx key = .ok v := by
    intro T parse kv pfx key hp hk
    rw [CacheService.getCache, buildCacheKeyE_ok hp hk]
    cases hg : getKey kv (builtCacheKey pfx key) with
    | error e => exact ⟨none, by simp [hg]⟩
    | ok v =>
      cases v with
      | none => exact ⟨none, by simp [hg]⟩
      | some data => exact ⟨parse data, by simp [hg]⟩
  have hset : ∀ (kv : KV) (pfx key value : String) (ttl : Nat), pfx ≠ "" → key ≠ "" →
      ∃ kv', CacheService.setCache kv pfx key value ttl = .ok kv' := by
    intro kv pfx key value ttl hp hk
    rw [CacheService.setCache, buildCacheKeyE_ok hp hk]
    cases hg : setKeyKV kv (builtCacheKey pfx key) value ttl with
    | error e => exact ⟨kv, by simp [hg]⟩
    | ok kv' => exact ⟨kv', by simp [hg]⟩
  refine ⟨rfl, rfl, hget, hset, ?_, ?_⟩
  · intro T parse kv pfx key
    by_cases hp : pfx = "" ∨ key = ""
    · exact ⟨none, by simp [CacheServiceV2.getCache, hp]⟩
    · push_neg at hp
      obtain ⟨v, hv⟩ := hget T parse kv pfx key hp.1 hp.2
      refine ⟨v, ?_⟩
      rw [CacheServiceV2.getCache]
      rw [if_neg (by rw [not_or]; exact hp)]
      rw [CacheService.getCache] at hv
      exact hv
  · intro kv pfx key value ttl
    by_cases hp : pfx = "" ∨ key = ""
    · exact ⟨kv, by simp [CacheServiceV2.setCache, hp]⟩
    · push_neg at hp
      obtain ⟨kv', hv⟩ := hset kv pfx key value ttl hp.1 hp.2
      refine ⟨kv', ?_⟩
      rw [CacheServiceV2.setCache]
      rw [if_neg (by rw [not_or]; exact hp)]
      rw [CacheService.setCache] at hv
      exact hv

/-- Closed instance of the never-throws parts at nonempty inputs. -/
theorem cache_service_throws_on_empty_key_witness :
    (∃ v, CacheService.getCache (fun t => some t) ⟨false, []⟩ "users" "k" = .ok v) ∧
    (∃ kv', CacheService.setCache ⟨true, []⟩ "users" "k" "v" 60 = .ok kv') :=
  ⟨cache_service_throws_on_empty_key.2.2.1 String (fun t => some t) ⟨false, []⟩
      "users" "k" (by decide) (by decide),
   cache_service_throws_on_empty_key.2.2.2.1 ⟨true, []⟩ "users" "k" "v" 60
      (by decide) (by decide)⟩

/-! ## Concurrent standard-path requests against one counter key (claim C9)

Each request of the standard path performs two separate atomic round-trips:
a read (`getKeyWithTTL`) and then — depending on the observed value — either
`setKey key '1'` (observed 0), no write (denied), or the atomic `incrKey`.
A schedule interleaves these atomic steps of several requests ("threads")
from different processes. -/

/-- Where one concurrent standard-path request stands: before its read,
after its read (holding the observed value), or finished (`counted` = it
performed a counter write). -/
inductive ThreadPhase where
  | start
  | readDone (observed : Nat)
  | done (counted : Bool)
deriving Repr, DecidableEq

/-- Shared counter (0 = key absent) plus the per-thread phases. -/
structure Sys where
  counter : Nat
  threads : List ThreadPhase
deriving Repr, DecidableEq

/-- One atomic round-trip by thread `i`: the read phase observes the
counter; the write phase then either SETs it to 1 (observed 0, the
first-request branch), finishes without a write (observed ≥ limit, deny), or
atomically increments. -/
def sysStep (limit : Nat) (s : Sys) (i : Nat) : Sys :=
  match s.threads.get? i with
  | none => s
  | some .start => { s with threads := s.threads.set i (.readDone s.counter) }
  | some (.readDone v) =>
    if v = 0 then ⟨1, s.threads.set i (.done true)⟩
    else if limit ≤ v then { s with threads := s.threads.set i (.done false) }
    else ⟨s.counter + 1, s.threads.set i (.done true)⟩
  | some (.done _) => s

/-- Execute a schedule of atomic steps. -/
def sysRun (limit : Nat) (s : Sys) (sched : List Nat) : Sys :=
  sched.foldl (sysStep limit) s

/-- How many requests were counted against the key (finished after
performing a counter write). -/
def countedOf (s : Sys) : Nat :=
  s.threads.countP (fun p => p == ThreadPhase.done true)

/-- C9 counterexample.  Two concurrent first-window requests, both reading
the absent counter before either writes (schedule: read A, read B, SET A,
SET B): both are counted, yet the stored counter ends at 1 — the
read-then-SET first-request branch is not a single atomic round-trip and
under-counts. -/
theorem counter_undercount_counterexample :
    (sysRun 3 ⟨0, [.start, .start]⟩ [0, 1, 0, 1]).counter = 1 ∧
    countedOf (sysRun 3 ⟨0, [.start, .start]⟩ [0, 1, 0, 1]) = 2 ∧
    (sysRun 3 ⟨0, [.start, .start]⟩ [0, 1, 0, 1]).counter ≠
      countedOf (sysRun 3 ⟨0, [.start, .start]⟩ [0, 1, 0, 1]) := by
  refine ⟨by decide, by decide, by decide⟩

theorem countP_set (f : ThreadPhase → Bool) :
    ∀ (l : List ThreadPhase) (i : Nat) (x a : ThreadPhase), l.get? i = some a →
      (l.set i x).countP f + (if f a then 1 else 0) =
        l.countP f + (if f x then 1 else 0) := by
  intro l
  induction l with
  | nil => intro i x a h; cases h
  | cons b t ih =>
    intro i x a h
    cases i with
    | zero =>
      injection h with hba
      subst hba
      simp only [List.set_cons_zero, List.countP_cons]
      omega
    | succ j =>
      have hj : t.get? j = some a := h
      simp only [List.set_cons_succ, List.countP_cons]
      have := ih j x a hj
      omega

/-- Every thread that has read the counter observed a positive value. -/
def ReadObservedPos (s : Sys) : Prop :=
  ∀ p ∈ s.threads, ∀ v, p = ThreadPhase.readDone v → 1 ≤ v

theorem sysStep_inv (limit : Nat) (s : Sys) (i init : Nat)
    (h1 : 1 ≤ s.counter) (h2 : ReadObservedPos s)
    (h3 : s.counter = init + countedOf s) :
    1 ≤ (sysStep limit s i).counter ∧ ReadObservedPos (sysStep limit s i) ∧
      (sysStep limit s i).counter = init + countedOf (sysStep limit s i) := by
  cases hg : s.threads.get? i with
  | none =>
    simp only [sysStep, hg]
    exact ⟨h1, h2, h3⟩
  | some p =>
    cases p with
    | start =>
      simp only [sysStep, hg]
      have hcnt := countP_set (fun p => p == ThreadPhase.done true) s.threads i
        (.readDone s.counter) .start hg
      refine ⟨h1, ?_, ?_⟩
      · intro p hp v hv
        rcases List.mem_or_eq_of_mem_set hp with hp | hp
        · exact h2 p hp v hv
        · rw [hp] at hv
          injection hv with hv
          omega
      · show s.counter = init + countedOf ⟨s.counter, s.threads.set i (.readDone s.counter)⟩
        simp only [countedOf] at h3 ⊢
        simp at hcnt
        omega
    | readDone v =>
      have hv1 : 1 ≤ v := h2 _ (List.get?_mem hg) v rfl
      have hv0 : ¬ v = 0 := by omega
      by_cases hlim : limit ≤ v
      · simp only [sysStep, hg, if_neg hv0, if_pos hlim]
        have hcnt := countP_set (fun p => p == ThreadPhase.done true) s.threads i
          (.done false) (.readDone v) hg
        refine ⟨h1, ?_, ?_⟩
        · intro p hp w hw
          rcases List.mem_or_eq_of_mem_set hp with hp | hp
          · exact h2 p hp w hw
          · rw [hp] at hw
            cases hw
        · show s.counter = init + countedOf ⟨s.counter, s.threads.set i (.done false)⟩
          simp only [countedOf] at h3 ⊢
          simp at hcnt
          omega
      · simp only [sysStep, hg, if_neg hv0, if_neg hlim]
        have hcnt := countP_set (fun p => p == ThreadPhase.done true) s.threads i
          (.done true) (.readDone v) hg
        refine ⟨by omega, ?_, ?_⟩
        · intro p hp w hw
          rcases List.mem_or_eq_of_mem_set hp with hp | hp
          · exact h2 p hp w hw
          · rw [hp] at hw
            cases hw
        · show s.counter + 1 = init + countedOf ⟨s.counter + 1, s.threads.set i (.done true)⟩
          simp only [countedOf] at h3 ⊢
          simp at hcnt
          omega
    | done b =>
      simp only [sysStep, hg]
      exact ⟨h1, h2, h3⟩

theorem sysRun_inv (limit : Nat) :
    ∀ (sched : List Nat) (s : Sys) (init : Nat),
      1 ≤ s.counter → ReadObservedPos s → s.counter = init + countedOf s →
      1 ≤ (sysRun limit s sched).counter ∧
        ReadObservedPos (sysRun limit s sched) ∧
        (sysRun limit s sched).counter = init + countedOf (sysRun limit s sched) := by
  intro sched
  induction sched with
  | nil => exact fun s init h1 h2 h3 => ⟨h1, h2, h3⟩
  | cons i rest ih =>
    intro s init h1 h2 h3
    obtain ⟨g1, g2, g3⟩ := sysStep_inv limit s i init h1 h2 h3
    exact ih (sysStep limit s i) init g1 g2 g3

/-- C9 (amended).  Once the window is started (the stored counter is
already ≥ 1, so every mutating write is the single atomic `incrKey`
round-trip), an arbitrary interleaving of any number of concurrent requests
leaves the counter exactly at its initial value plus the number of counted
requests: the atomic increments never under- or over-count.  (The
first-request read-then-SET branch is exempt: the counterexample shows it
can under-count.) -/
theorem counter_exact_once_window_started (limit m n : Nat) (hm : 1 ≤ m)
    (sched : List Nat) :
    (sysRun limit ⟨m, List.replicate n .start⟩ sched).counter =
      m + countedOf (sysRun limit ⟨m, List.replicate n .start⟩ sched) := by
  have h0 : countedOf ⟨m, List.replicate n ThreadPhase.start⟩ = 0 := by
    simp only [countedOf]
    rw [List.countP_eq_zero]
    intro a ha
    rw [List.eq_of_mem_replicate ha]
    decide
  have h2 : ReadObservedPos ⟨m, List.replicate n ThreadPhase.start⟩ := by
    intro p hp v hv
    rw [List.eq_of_mem_replicate hp] at hv
    cases hv
  exact (sysRun_inv limit sched ⟨m, List.replicate n .start⟩ m hm h2
    (by simp [h0])).2.2

/-- Closed instance: the counterexample schedule run from an already-started
window (counter 1) counts exactly. -/
theorem counter_exact_once_window_started_witness :
    (sysRun 3 ⟨1, List.replicate 2 .start⟩ [0, 1, 0, 1]).counter =
      1 + countedOf (sysRun 3 ⟨1, List.replicate 2 .start⟩ [0, 1, 0, 1]) :=
  counter_exact_once_window_started 3 1 2 le_rfl [0, 1, 0, 1]

/-- Closed instance of the sanitization theorem: every character of the
sanitized form of a hostile key is in the restricted class. -/
theorem sanitizeCacheKey_restricted_witness :
    isKeyAllowedChar 'a' = true ∧ sanitizeCacheKey "a  b" = "a_b" :=
  ⟨sanitizeCacheKey_restricted.1 "a  b" 'a' (by decide),
   sanitizeCacheKey_restricted.2.2.2.2.2.1⟩
